import Mathlib

/-!
Verification of the tag-parsing engine of `excel-tags-parser-mongodb`.

Python strings are embedded as lists of character codes (`PyStr`), cells
of a pandas DataFrame as `Option PyStr` (with `none` playing the role of
`None`/`NaN`), and Python dicts as insertion-ordered association lists
whose insert operation overwrites an existing key in place, exactly as a
Python `dict` does.  The functions below are direct translations of
`src/processor/tag_parser.py`, `src/processor/excel_reader.py`,
`src/processor/excel_writer.py` and `src/app.py`; `json.loads` is
modelled by a small recursive-descent JSON reader covering objects,
arrays, strings, integers, booleans and null.
-/

/-- Python strings as lists of character codes. -/
abbrev PyStr := List Nat

/-- A pandas cell: `none` is `None`/`NaN`. -/
abbrev Cell := Option PyStr

/-- Turn a Lean string literal into a `PyStr`. -/
def st (x : String) : PyStr := x.data.map Char.toNat

/-- ASCII whitespace, the characters stripped by Python `str.strip()`. -/
def isSpace (c : Nat) : Bool := c = 32 || (9 ≤ c && c ≤ 13)

/-- Strip leading and trailing whitespace (`str.strip()`). -/
def pystrip (l : PyStr) : PyStr :=
  ((l.dropWhile isSpace).reverse.dropWhile isSpace).reverse

/-- ASCII uppercase letter. -/
def isUpperA (c : Nat) : Bool := 65 ≤ c && c ≤ 90

/-- ASCII lowercase letter. -/
def isLowerA (c : Nat) : Bool := 97 ≤ c && c ≤ 122

/-- ASCII letter (a "cased" character for `str.title()`). -/
def isAlphaA (c : Nat) : Bool := isUpperA c || isLowerA c

/-- Lower-case one character (`str.lower()`, ASCII fragment). -/
def lowerC (c : Nat) : Nat := if isUpperA c then c + 32 else c

/-- Upper-case one character (`str.upper()`, ASCII fragment). -/
def upperC (c : Nat) : Nat := if isLowerA c then c - 32 else c

/-- `str.lower()` character by character. -/
def pylower (l : PyStr) : PyStr := l.map lowerC

/-- The worker behind `str.title()`: the flag records whether the
previous character was cased. -/
def titleGo (prev : Bool) : PyStr → PyStr
  | [] => []
  | c :: rest =>
    if isAlphaA c then
      (if prev then lowerC c else upperC c) :: titleGo true rest
    else
      c :: titleGo false rest

/-- `str.title()` (ASCII fragment): upper-case a letter that follows a
non-letter, lower-case a letter that follows a letter. -/
def pytitle (l : PyStr) : PyStr := titleGo false l

/-- `key.replace(UNDERSCORE, SPACE)` from `format_column_name`. -/
def underscoreToSpace (l : PyStr) : PyStr :=
  l.map (fun c => if c = 95 then 32 else c)

/-- An extracted field map: a Python `Dict[str, Optional[str]]` as an
insertion-ordered association list. -/
abbrev EFMap := List (PyStr × Cell)

/-- Python dict assignment `d[k] = v`: overwrite in place if the key
exists, otherwise append. -/
def dictInsert (d : EFMap) (k : PyStr) (v : Cell) : EFMap :=
  if (d.map Prod.fst).contains k then
    d.map (fun p => if p.1 = k then (p.1, v) else p)
  else
    d ++ [(k, v)]

/-- Python dict lookup `d.get(k)` (first — and only — occurrence). -/
def dictGet (d : EFMap) (k : PyStr) : Option Cell :=
  (d.find? (fun p => p.1 = k)).map Prod.snd

/-- The keys of a dict, in insertion order. -/
def dictKeys (d : EFMap) : List PyStr := d.map Prod.fst

/-- The `special_cases` synonym table of `format_column_name`. -/
def special_cases : List (PyStr × PyStr) :=
  [ (st "applicationname", st "Application Name")
  , (st "application name", st "Application Name")
  , (st "env", st "Environment")
  , (st "environment", st "Environment")
  , (st "owner", st "Owner")
  , (st "cost", st "Cost")
  , (st "primarycontact", st "Primary Contact")
  , (st "primary contact", st "Primary Contact")
  , (st "usage", st "Usage")
  , (st "costcenter", st "Cost Center")
  , (st "cost center", st "Cost Center")
  , (st "businessunit", st "Business Unit")
  , (st "business unit", st "Business Unit")
  , (st "department", st "Department")
  , (st "project", st "Project")
  , (st "team", st "Team") ]

/-- Synonym-table lookup (`key_lower in special_cases`). -/
def tableLookup (k : PyStr) : Option PyStr :=
  (special_cases.find? (fun p => p.1 = k)).map Prod.snd

/-- `format_column_name` from `tag_parser.py`: replace underscores with
spaces, look the lower-cased stripped key up in the synonym table, and
otherwise title-case the stripped key. -/
def format_column_name (key : PyStr) : PyStr :=
  let key := underscoreToSpace key
  let key_lower := pystrip (pylower key)
  match tableLookup key_lower with
  | some v => v
  | none => pytitle (pystrip key)

/-- `str.split(sep)` for a one-character separator: split on every
occurrence, keeping empty segments; never returns an empty list. -/
def splitOn (sep : Nat) : PyStr → List PyStr
  | [] => [[]]
  | c :: rest =>
    if c = sep then [] :: splitOn sep rest
    else
      match splitOn sep rest with
      | h :: tl => (c :: h) :: tl
      | [] => [[c]]

/-- `re.split(CLASS, s)` for a character class: split on every character
belonging to the class. -/
def splitAny (seps : List Nat) : PyStr → List PyStr
  | [] => [[]]
  | c :: rest =>
    if seps.contains c then [] :: splitAny seps rest
    else
      match splitAny seps rest with
      | h :: tl => (c :: h) :: tl
      | [] => [[c]]

/-- `s.replace(two-character pattern, one-character replacement)`:
left-to-right, non-overlapping, exactly as Python `str.replace`. -/
def replace2 (p q r : Nat) : PyStr → PyStr
  | [] => []
  | [a] => [a]
  | a :: b :: rest =>
    if a = p && b = q then r :: replace2 p q r rest
    else a :: replace2 p q r (b :: rest)

/-- `t[1:-1]` applied when `t.startswith(QUOTE) and t.endswith(QUOTE)`,
otherwise the string unchanged (shared by the un-escaping step and the
value clean-up of the delimited parser). -/
def stripQuotes (l : PyStr) : PyStr :=
  if l.head? = some 34 && l.getLast? = some 34 then (l.drop 1).dropLast else l

/-- The un-escaping step of `parse_tags` (lines 110–117): strip one layer
of surrounding double quotes, then replace escaped quotes and escaped
backslashes. -/
def unescapeTags (t : PyStr) : PyStr :=
  replace2 92 92 92 (replace2 92 34 34 (stripQuotes t))

/-- Processing of one candidate pair inside `_parse_key_value_format`:
skip it when it has no colon, otherwise split on the first colon, trim,
strip one layer of quotes from the value, normalize the key and store. -/
def kvPair (d : EFMap) (pair : PyStr) : EFMap :=
  let pair := pystrip pair
  if pair.contains 58 then
    let key := pair.takeWhile (· != 58)
    let value := (pair.dropWhile (· != 58)).drop 1
    dictInsert d (format_column_name (pystrip key)) (some (stripQuotes (pystrip value)))
  else d

/-- `_parse_key_value_format` from `tag_parser.py`: split on `,` or `;`
and extract every `key:value` candidate. -/
def _parse_key_value_format (t : PyStr) : EFMap :=
  (splitAny [44, 59] t).foldl kvPair []

/-- One attempted match of the regex `"([^"]+)"\s*:\s*"([^"]*)"` at the
start of the string: on success returns the two groups and the rest of
the string after the match. -/
def matchPairAt : PyStr → Option ((PyStr × PyStr) × PyStr)
  | [] => none
  | c :: r1 =>
    if c ≠ 34 then none
    else if (r1.takeWhile (· != 34)).isEmpty then none
    else
      match r1.dropWhile (· != 34) with
      | [] => none
      | q2 :: r3 =>
        if q2 ≠ 34 then none
        else
          match r3.dropWhile isSpace with
          | [] => none
          | colon :: r5 =>
            if colon ≠ 58 then none
            else
              match r5.dropWhile isSpace with
              | [] => none
              | q3 :: r7 =>
                if q3 ≠ 34 then none
                else
                  match r7.dropWhile (· != 34) with
                  | [] => none
                  | q4 :: r9 =>
                    if q4 ≠ 34 then none
                    else some ((r1.takeWhile (· != 34), r7.takeWhile (· != 34)), r9)

/-- Fuel-driven worker for the regex scan; every step shortens the
string by at least one character, so fuel equal to the string length is
exactly enough. -/
def scanQuotedF : Nat → PyStr → List (PyStr × PyStr)
  | 0, _ => []
  | fuel + 1, l =>
    match l with
    | [] => []
    | c :: rest =>
      match matchPairAt (c :: rest) with
      | some (pr, rem) => pr :: scanQuotedF fuel rem
      | none => scanQuotedF fuel rest

/-- `re.findall` for the pattern above: scan left to right, restarting
one character later after a failed match and after the end of each
successful match. -/
def scanQuoted (t : PyStr) : List (PyStr × PyStr) := scanQuotedF t.length t

/-- `_parse_escaped_key_value_format` from `tag_parser.py`. -/
def _parse_escaped_key_value_format (t : PyStr) : EFMap :=
  (scanQuoted t).foldl
    (fun d p => dictInsert d (format_column_name (pystrip p.1)) (some (pystrip p.2))) []

/-- One conditional positional assignment of
`_parse_pipe_separated_format`: `if len(parts) >= i+1 and parts[i]:`
(the argument is `parts[i]` when the list is long enough). -/
def pipeSet (d : EFMap) (k : PyStr) (part : Option PyStr) : EFMap :=
  match part with
  | some p => if p.isEmpty then d else dictInsert d k (some p)
  | none => d

/-- `_parse_pipe_separated_format` from `tag_parser.py`: the dict starts
with the four fixed fields mapped to `None` and the first four non-empty
segments overwrite them positionally. -/
def _parse_pipe_separated_format (t : PyStr) : EFMap :=
  let parts := (splitOn 124 t).map pystrip
  let d : EFMap :=
    [ (st "Application Name", none), (st "Environment", none)
    , (st "Owner", none), (st "Cost", none) ]
  pipeSet (pipeSet (pipeSet (pipeSet d (st "Application Name") (parts.get? 0))
    (st "Environment") (parts.get? 1)) (st "Owner") (parts.get? 2)) (st "Cost") (parts.get? 3)

/-- JSON values as produced by `json.loads` (integers only; the model
reports floats as a parse failure). -/
inductive PyJson where
  | jnull : PyJson
  | jbool : Bool → PyJson
  | jint : Int → PyJson
  | jstr : PyStr → PyJson
  | jarr : List PyJson → PyJson
  | jobj : List (PyStr × PyJson) → PyJson

/-- JSON inter-token whitespace. -/
def jwsC (c : Nat) : Bool := c = 32 || c = 9 || c = 10 || c = 13

/-- Skip JSON whitespace. -/
def jws (l : PyStr) : PyStr := l.dropWhile jwsC

/-- ASCII digit. -/
def isDigitA (c : Nat) : Bool := 48 ≤ c && c ≤ 57

/-- Body of a JSON string, after the opening quote: returns the decoded
content and the rest after the closing quote.  The common escapes are
decoded; `\\u` escapes and raw control characters are parse failures in
this model. -/
def jstrBody : PyStr → Option (PyStr × PyStr)
  | [] => none
  | c :: r =>
    if c = 34 then some ([], r)
    else if c = 92 then
      match r with
      | [] => none
      | e :: r2 =>
        let dec : Option Nat :=
          if e = 34 then some 34 else if e = 92 then some 92
          else if e = 47 then some 47 else if e = 98 then some 8
          else if e = 102 then some 12 else if e = 110 then some 10
          else if e = 114 then some 13 else if e = 116 then some 9
          else none
        match dec with
        | none => none
        | some d =>
          match jstrBody r2 with
          | some (s, rest) => some (d :: s, rest)
          | none => none
    else if c < 32 then none
    else
      match jstrBody r with
      | some (s, rest) => some (c :: s, rest)
      | none => none

/-- Digits of a natural number, most significant first. -/
def natRepr (n : Nat) : PyStr := (Nat.toDigits 10 n).map Char.toNat

/-- Python `str(int)`. -/
def intRepr (n : Int) : PyStr :=
  if n < 0 then 45 :: natRepr n.natAbs else natRepr n.natAbs

/-- Read an unsigned decimal integer (at least one digit). -/
def jnat (l : PyStr) : Option (Nat × PyStr) :=
  let ds := l.takeWhile isDigitA
  if ds.isEmpty then none
  else some (ds.foldl (fun a c => a * 10 + (c - 48)) 0, l.dropWhile isDigitA)

/-- The state of the recursive-descent JSON reader: reading a value,
reading the members of an object, or reading the elements of an array
(`acc` holds what was read so far, in source order). -/
inductive JMode where
  | val : JMode
  | members : List (PyStr × PyJson) → JMode
  | elems : List PyJson → JMode

/-- Fuel-driven recursive-descent JSON parser (model of `json.loads`):
one function for the three states so that it reduces by computation. -/
def jparse : Nat → JMode → PyStr → Option (PyJson × PyStr)
  | 0, _, _ => none
  | fuel + 1, .val, l =>
    match jws l with
    | [] => none
    | c :: r =>
      if c = 123 then
        match jws r with
        | [] => none
        | c2 :: r2 => if c2 = 125 then some (.jobj [], r2) else jparse fuel (.members []) (c2 :: r2)
      else if c = 91 then
        match jws r with
        | [] => none
        | c2 :: r2 => if c2 = 93 then some (.jarr [], r2) else jparse fuel (.elems []) (c2 :: r2)
      else if c = 34 then
        match jstrBody r with
        | some (s, rest) => some (.jstr s, rest)
        | none => none
      else if c = 116 then
        match r with
        | 114 :: 117 :: 101 :: rest => some (.jbool true, rest)
        | _ => none
      else if c = 102 then
        match r with
        | 97 :: 108 :: 115 :: 101 :: rest => some (.jbool false, rest)
        | _ => none
      else if c = 110 then
        match r with
        | 117 :: 108 :: 108 :: rest => some (.jnull, rest)
        | _ => none
      else if c = 45 then
        match jnat r with
        | some (n, rest) =>
          if rest.head? = some 46 || rest.head? = some 101 || rest.head? = some 69 then none
          else some (.jint (-(n : Int)), rest)
        | none => none
      else if isDigitA c then
        match jnat (c :: r) with
        | some (n, rest) =>
          if rest.head? = some 46 || rest.head? = some 101 || rest.head? = some 69 then none
          else some (.jint (n : Int), rest)
        | none => none
      else none
  | fuel + 1, .members acc, l =>
    match jws l with
    | [] => none
    | c :: r =>
      if c ≠ 34 then none
      else
        match jstrBody r with
        | none => none
        | some (k, rest) =>
          match jws rest with
          | [] => none
          | c2 :: r2 =>
            if c2 ≠ 58 then none
            else
              match jparse fuel .val r2 with
              | none => none
              | some (v, rest2) =>
                match jws rest2 with
                | [] => none
                | c3 :: r3 =>
                  if c3 = 44 then jparse fuel (.members (acc ++ [(k, v)])) r3
                  else if c3 = 125 then some (.jobj (acc ++ [(k, v)]), r3)
                  else none
  | fuel + 1, .elems acc, l =>
    match jparse fuel .val l with
    | none => none
    | some (v, rest) =>
      match jws rest with
      | [] => none
      | c :: r =>
        if c = 44 then jparse fuel (.elems (acc ++ [v])) r
        else if c = 93 then some (.jarr (acc ++ [v]), r)
        else none

/-- `json.loads` model: parse one value and require only whitespace
after it. -/
def jsonLoads (t : PyStr) : Option PyJson :=
  match jparse (2 * t.length + 2) .val t with
  | some (v, rest) => if (jws rest).isEmpty then some v else none
  | none => none

/-- Generic insertion-ordered association-list assignment (Python dict
semantics, shared with `dictInsert`). -/
def alInsert {α : Type} (d : List (PyStr × α)) (k : PyStr) (v : α) : List (PyStr × α) :=
  if (d.map Prod.fst).contains k then
    d.map (fun p => if p.1 = k then (p.1, v) else p)
  else
    d ++ [(k, v)]

/-- The dict `json.loads` builds from the raw member list: duplicate
keys collapse, last value wins, first position kept. -/
def jobjDict (fs : List (PyStr × PyJson)) : List (PyStr × PyJson) :=
  fs.foldl (fun d p => alInsert d p.1 p.2) []

/-- Python `repr` of a string, as used inside `str(list)`/`str(dict)`
(single-quote form; the double-quote fallback applies only when the
string contains a single quote and no double quote). -/
def pyReprStr (s : PyStr) : PyStr :=
  let esc : Nat → Nat → PyStr := fun quote c =>
    if c = 92 then [92, 92]
    else if c = quote then [92, quote]
    else if c = 10 then [92, 110]
    else if c = 13 then [92, 114]
    else if c = 9 then [92, 116]
    else [c]
  if s.contains 39 && !(s.contains 34) then
    34 :: (s.flatMap (esc 34)) ++ [34]
  else
    39 :: (s.flatMap (esc 39)) ++ [39]

mutual

/-- Python `repr` of a decoded JSON value. -/
def pyReprOf : PyJson → PyStr
  | .jnull => st "None"
  | .jbool true => st "True"
  | .jbool false => st "False"
  | .jint n => intRepr n
  | .jstr s => pyReprStr s
  | .jarr xs => 91 :: pyReprList xs ++ [93]
  | .jobj fs => 123 :: pyReprObj fs ++ [125]

/-- `repr` of list elements, comma separated. -/
def pyReprList : List PyJson → PyStr
  | [] => []
  | [x] => pyReprOf x
  | x :: xs => pyReprOf x ++ [44, 32] ++ pyReprList xs

/-- `repr` of dict members, comma separated. -/
def pyReprObj : List (PyStr × PyJson) → PyStr
  | [] => []
  | [(k, v)] => pyReprStr k ++ [58, 32] ++ pyReprOf v
  | (k, v) :: xs => pyReprStr k ++ [58, 32] ++ pyReprOf v ++ [44, 32] ++ pyReprObj xs

end

/-- Python `str(value)` for a decoded JSON value. -/
def pyStrOf : PyJson → PyStr
  | .jstr s => s
  | v => pyReprOf v

/-- `_parse_json_format` from `tag_parser.py`: attempt `json.loads` only
on brace-delimited strings, extracting every key/value pair with
normalized keys and stringified values; otherwise (or when decoding
fails) fall back to the escaped-quoted-pairs parser. -/
def _parse_json_format (t : PyStr) : EFMap :=
  if t.head? = some 123 && t.getLast? = some 125 then
    match jsonLoads t with
    | some (.jobj fs) =>
      (jobjDict fs).foldl
        (fun d p => dictInsert d (format_column_name (pystrip p.1)) (some (pyStrOf p.2))) []
    | some _ => []
    | none => _parse_escaped_key_value_format t
  else
    _parse_escaped_key_value_format t

/-- `parse_tags` from `tag_parser.py`: trim, un-escape when a backslash
is present, then dispatch on the detected format. -/
def parse_tags (cell : Cell) : EFMap :=
  match cell with
  | none => []
  | some raw =>
    let t0 := pystrip raw
    if t0.isEmpty then []
    else
      let t := if t0.contains 92 then unescapeTags t0 else t0
      if (t.head? = some 123 && t.getLast? = some 125) || (t.contains 34 && t.contains 58) then
        let r := _parse_json_format t
        if r.isEmpty then _parse_escaped_key_value_format t else r
      else if t.contains 58 then _parse_key_value_format t
      else if t.contains 124 then _parse_pipe_separated_format t
      else []

/-- A pandas DataFrame: a list of column labels and positional rows. -/
structure DataFrame where
  cols : List PyStr
  rows : List (List Cell)

/-- Index of the first occurrence of a label (the column pandas selects
with `df[c]`); the length of the list when the label is absent. -/
def idx (c : PyStr) : List PyStr → Nat
  | [] => 0
  | x :: xs => if x = c then 0 else idx c xs + 1

/-- The value of record `i` at column `c` (`None`/`NaN` when the row has
no such column). -/
def dfCell (df : DataFrame) (i : Nat) (c : PyStr) : Cell :=
  (((df.rows.get? i).getD []).get? (idx c df.cols)).getD none

/-- `config.TAG_COLUMN`. -/
def TAG_COLUMN : PyStr := st "Tags"

/-- The name of the per-run constant date column added by
`process_dataframe`. -/
def DATE_COL : PyStr := st "Date"

/-- Insertion-ordered union of labels, as pandas collects columns. -/
def unionCols (acc : List PyStr) (cs : List PyStr) : List PyStr :=
  cs.foldl (fun a c => if a.contains c then a else a ++ [c]) acc

/-- The columns `pd.DataFrame(list_of_dicts)` produces: keys in order of
first appearance. -/
def firstAppear (ds : List EFMap) : List PyStr :=
  ds.foldl (fun acc d => unionCols acc (dictKeys d)) []

/-- `pd.DataFrame(list_of_dicts)`: one row per dict, aligned on the
union of the keys, missing keys (and Python `None` values) as `NaN`. -/
def parsedFrame (ds : List EFMap) : DataFrame :=
  let cols := firstAppear ds
  ⟨cols, ds.map (fun d => cols.map (fun c => (dictGet d c).join))⟩

/-- `df[name] = v`: overwrite the column in place when present,
otherwise append it. -/
def dfSetCol (df : DataFrame) (name : PyStr) (v : Cell) : DataFrame :=
  if df.cols.contains name then
    ⟨df.cols, df.rows.map (fun r => r.set (idx name df.cols) v)⟩
  else
    ⟨df.cols ++ [name], df.rows.map (fun r => r ++ [v])⟩

/-- `df.drop(columns=names)`. -/
def dfDropCols (df : DataFrame) (names : List PyStr) : DataFrame :=
  ⟨df.cols.filter (fun c => !(names.contains c)),
   df.rows.map (fun r => ((df.cols.zip r).filter (fun p => !(names.contains p.1))).map Prod.snd)⟩

/-- `pd.concat([a, b], axis=1)` for two frames over the same row index. -/
def hconcat (a b : DataFrame) : DataFrame :=
  ⟨a.cols ++ b.cols, a.rows.zipWith (· ++ ·) b.rows⟩

/-- The body of `process_dataframe` once the tag column is known to
exist: parse every row's tags, build the parsed frame, add the `Date`
column, drop parsed columns that collide with original ones (except the
tag column itself), and concatenate horizontally. -/
def process_core (df : DataFrame) (tagCol : PyStr) (dateVal : Cell) : DataFrame :=
  let parsed := df.rows.map (fun r => parse_tags ((r.get? (idx tagCol df.cols)).getD none))
  let pf := dfSetCol (parsedFrame parsed) DATE_COL dateVal
  let dup := pf.cols.filter (fun c => df.cols.contains c && c ≠ tagCol)
  hconcat df (dfDropCols pf dup)

/-- `process_dataframe` from `tag_parser.py`: raises `ValueError` when
the tag column is absent, otherwise runs the body above. -/
def process_dataframe (df : DataFrame) (tagCol : PyStr) (dateVal : Cell) :
    Except PyStr DataFrame :=
  if df.cols.contains tagCol then .ok (process_core df tagCol dateVal)
  else .error (st "Column not found in DataFrame")

/-- Consecutive chunks of (at least) the given positive size, as
`read_excel_in_chunks` yields them; a batch size of `0` is read as `1`. -/
def chunkList {α : Type} (b : Nat) (l : List α) : List (List α) :=
  match l with
  | [] => []
  | x :: xs => (x :: xs).take (max b 1) :: chunkList b ((x :: xs).drop (max b 1))
termination_by l.length
decreasing_by simp [List.length_drop]

/-- `pd.concat(chunks, ignore_index=True)`: align every chunk on the
insertion-ordered union of the columns, filling missing columns with
`NaN`. -/
def concatRows (dfs : List DataFrame) : DataFrame :=
  let cols := dfs.foldl (fun acc d => unionCols acc d.cols) []
  ⟨cols,
   dfs.flatMap (fun d => d.rows.map (fun r =>
     cols.map (fun c => if d.cols.contains c then (r.get? (idx c d.cols)).getD none else none)))⟩

/-- The chunked pipeline of `app.process_excel_file` followed by
`write_chunks_to_excel`: read in chunks, process each chunk, concatenate. -/
def pipelineRun (b : Nat) (df : DataFrame) (tagCol : PyStr) (dateVal : Cell) : DataFrame :=
  concatRows ((chunkList b df.rows).map (fun rs => process_core ⟨df.cols, rs⟩ tagCol dateVal))

/-! ### The positional pipe-list parser (claim C7) -/

/-- The cell a positional segment contributes: `None` when the segment
is missing or empty, the segment itself otherwise. -/
def cellOf (o : Option PyStr) : Cell :=
  match o with
  | some p => if p.isEmpty then none else some p
  | none => none

/-- Segment `i` of a pipe-separated tag string, trimmed, as a cell. -/
def pipeSeg (t : PyStr) (i : Nat) : Cell :=
  cellOf (((splitOn 124 t).map pystrip).get? i)

/-! ### Format detection (claims C1 and C2) -/

/-- Step 1 of detection: un-escape the string when it contains a
backslash, otherwise leave it alone. -/
def unescapeIfNeeded (t0 : PyStr) : PyStr :=
  if t0.contains 92 then unescapeTags t0 else t0

/-- The string the grammar conditions are checked against: the trimmed
tag string, un-escaped when it contains a backslash. -/
def detectInput (s : PyStr) : PyStr := unescapeIfNeeded (pystrip s)

/-- The detection order as worded by the spec (§4.1), over the
repository's grammar parsers: 1. un-escape a backslash-containing
string; 2. a brace-delimited string, or one containing both a quote and
a colon, goes to the JSON-object parser, falling through to the
escaped-quoted-pairs parser when that raises or yields nothing; 3. else
a string with a colon goes to the delimited key:value parser; 4. else a
string with a pipe goes to the positional pipe parser; 5. else no
grammar matches and the map is empty. -/
def specDetect (t0 : PyStr) : EFMap :=
  let t := unescapeIfNeeded t0
  if (t.head? = some 123 && t.getLast? = some 125) || (t.contains 34 && t.contains 58) then
    let j := _parse_json_format t
    if j.isEmpty then _parse_escaped_key_value_format t else j
  else if t.contains 58 then _parse_key_value_format t
  else if t.contains 124 then _parse_pipe_separated_format t
  else []

/-! ### The structure of `process_dataframe`'s output -/

/-- The tag cell of one row. -/
def tagCell (df : DataFrame) (tagCol : PyStr) (r : List Cell) : Cell :=
  (r.get? (idx tagCol df.cols)).getD none

/-- The per-row extracted field maps of a frame. -/
def rowMaps (df : DataFrame) (tagCol : PyStr) : List EFMap :=
  df.rows.map (fun r => parse_tags (tagCell df tagCol r))

/-- The columns of the parsed frame, before the `Date` column is added. -/
def parsedCols (df : DataFrame) (tagCol : PyStr) : List PyStr :=
  firstAppear (rowMaps df tagCol)

/-- The columns of the parsed frame after `parsed_df['Date'] = date_value`. -/
def pfColsD (df : DataFrame) (tagCol : PyStr) : List PyStr :=
  if (parsedCols df tagCol).contains DATE_COL then parsedCols df tagCol
  else parsedCols df tagCol ++ [DATE_COL]

/-- The parsed columns that survive the duplicate drop: those that do
not collide with an original column, the tag column excepted. -/
def keptCols (df : DataFrame) (tagCol : PyStr) : List PyStr :=
  (pfColsD df tagCol).filter (fun c => !(df.cols.contains c && c ≠ tagCol))

/-- The value a parsed (non-original) column carries for one row:
the run constant for `Date`, the extracted value otherwise. -/
def parsedVal (df : DataFrame) (tagCol : PyStr) (dv : Cell) (r : List Cell) (c : PyStr) : Cell :=
  if c = DATE_COL then dv else (dictGet (parse_tags (tagCell df tagCol r)) c).join

/-! ### Sample frames for the witnesses -/

/-- A frame with a tag column and an original `Owner` column that
collides with a parsed field. -/
def sampleDF : DataFrame :=
  ⟨[st "Tags", st "Owner"], [[some (st "owner:john,env:prod"), some (st "alice")]]⟩

/-- A frame without the tag column. -/
def noTagDF : DataFrame := ⟨[st "Resource"], [[some (st "x")]]⟩

/-- A frame that already carries an original `Date` column. -/
def dateDF : DataFrame :=
  ⟨[st "Tags", st "Date"], [[some (st "owner:john"), some (st "2020-01")]]⟩

/-- The union of columns built by `pd.concat`. -/
def concatCols (dfs : List DataFrame) : List PyStr :=
  dfs.foldl (fun acc d => unionCols acc d.cols) []

/-- The content function of the final enriched record of a row: original
columns keep their value, the `Date` column carries the run constant,
any other column carries the extracted value (null when the row's tags
do not produce it).  It does not depend on the batch boundaries. -/
def rowVal (df : DataFrame) (tagCol : PyStr) (dv : Cell) (r : List Cell) (c : PyStr) : Cell :=
  if c ∈ df.cols then (r.get? (idx c df.cols)).getD none
  else parsedVal df tagCol dv r c

/-- A one-column, one-row frame for the C4 counterexample. -/
def tinyDF : DataFrame := ⟨[st "Tags"], [[some (st "owner:john")]]⟩

/-! ### Theorems -/

example : format_column_name (st "application_name") = st "Application Name" := by decide

example : format_column_name (st "custom_field") = st "Custom Field" := by decide

example : format_column_name (st "mykey") = st "Mykey" := by decide

theorem dropWhile_len_le {α : Type} (p : α → Bool) :
    ∀ l : List α, (l.dropWhile p).length ≤ l.length := by
  intro l
  induction l with
  | nil => simp
  | cons a l ih =>
    rw [List.dropWhile_cons]
    split
    · exact Nat.le_succ_of_le ih
    · simp

theorem matchPairAt_length {t : PyStr} {pr : PyStr × PyStr} {rem : PyStr}
    (h : matchPairAt t = some (pr, rem)) : rem.length < t.length := by
  match t with
  | [] => simp [matchPairAt] at h
  | c :: r1 =>
    simp only [matchPairAt] at h
    split at h
    · exact absurd h (by simp)
    split at h
    · exact absurd h (by simp)
    have h1 : (r1.dropWhile (· != 34)).length ≤ r1.length := dropWhile_len_le _ r1
    split at h
    · exact absurd h (by simp)
    next q2 r3 heq3 =>
    split at h
    · exact absurd h (by simp)
    have h3 : r3.length + 1 = (r1.dropWhile (· != 34)).length := by rw [heq3]; rfl
    have h4 : (r3.dropWhile isSpace).length ≤ r3.length := dropWhile_len_le _ r3
    split at h
    · exact absurd h (by simp)
    next colon r5 heq5 =>
    split at h
    · exact absurd h (by simp)
    have h5 : r5.length + 1 = (r3.dropWhile isSpace).length := by rw [heq5]; rfl
    have h6 : (r5.dropWhile isSpace).length ≤ r5.length := dropWhile_len_le _ r5
    split at h
    · exact absurd h (by simp)
    next q3 r7 heq7 =>
    split at h
    · exact absurd h (by simp)
    have h7 : r7.length + 1 = (r5.dropWhile isSpace).length := by rw [heq7]; rfl
    have h8 : (r7.dropWhile (· != 34)).length ≤ r7.length := dropWhile_len_le _ r7
    split at h
    · exact absurd h (by simp)
    next q4 r9 heq9 =>
    split at h
    · exact absurd h (by simp)
    have h9 : r9.length + 1 = (r7.dropWhile (· != 34)).length := by rw [heq9]; rfl
    have hrem : rem = r9 := by
      rw [Option.some_inj] at h
      exact (congrArg Prod.snd h).symm
    subst hrem
    simp only [List.length_cons]
    omega

example :
    _parse_pipe_separated_format (st "myapp|production|john|1000") =
      [ (st "Application Name", some (st "myapp"))
      , (st "Environment", some (st "production"))
      , (st "Owner", some (st "john"))
      , (st "Cost", some (st "1000")) ] := by decide

example :
    parse_tags (some (st "applicationname:myapp,environment:prod,owner:john,usage:databricks")) =
      [ (st "Application Name", some (st "myapp"))
      , (st "Environment", some (st "prod"))
      , (st "Owner", some (st "john"))
      , (st "Usage", some (st "databricks")) ] := by decide

example :
    parse_tags (some (st "\"owner\":\"data\",\"environment\":\"production\",\"applicationname\":\"arcesb\"")) =
      [ (st "Owner", some (st "data"))
      , (st "Environment", some (st "production"))
      , (st "Application Name", some (st "arcesb")) ] := by decide

example :
    parse_tags (some ((123 :: st "\"applicationname\": \"myapp\", \"primarycontact\": \"john doe\"") ++ [125])) =
      [ (st "Application Name", some (st "myapp"))
      , (st "Primary Contact", some (st "john doe")) ] := by decide

example : parse_tags (some (st "hello world")) = [] := by decide

/-! ### Character-level facts about the ASCII case maps -/

theorem lowerC_lowerC (c : Nat) : lowerC (lowerC c) = lowerC c := by
  simp only [lowerC, isUpperA, Bool.and_eq_true, decide_eq_true_eq]
  split_ifs <;> omega

theorem upperC_upperC (c : Nat) : upperC (upperC c) = upperC c := by
  simp only [upperC, isLowerA, Bool.and_eq_true, decide_eq_true_eq]
  split_ifs <;> omega

theorem lowerC_upperC (c : Nat) : lowerC (upperC c) = lowerC c := by
  simp only [lowerC, upperC, isUpperA, isLowerA, Bool.and_eq_true, decide_eq_true_eq]
  split_ifs <;> omega

theorem isAlphaA_lowerC (c : Nat) : isAlphaA (lowerC c) = isAlphaA c := by
  rw [Bool.eq_iff_iff]
  simp only [isAlphaA, isUpperA, isLowerA, lowerC, Bool.or_eq_true, Bool.and_eq_true,
    decide_eq_true_eq]
  split_ifs <;> omega

theorem isAlphaA_upperC (c : Nat) : isAlphaA (upperC c) = isAlphaA c := by
  rw [Bool.eq_iff_iff]
  simp only [isAlphaA, isUpperA, isLowerA, upperC, Bool.or_eq_true, Bool.and_eq_true,
    decide_eq_true_eq]
  split_ifs <;> omega

theorem isSpace_lowerC (c : Nat) : isSpace (lowerC c) = isSpace c := by
  rw [Bool.eq_iff_iff]
  simp only [isSpace, lowerC, isUpperA, Bool.or_eq_true, Bool.and_eq_true, decide_eq_true_eq]
  split_ifs <;> omega

theorem isSpace_upperC (c : Nat) : isSpace (upperC c) = isSpace c := by
  rw [Bool.eq_iff_iff]
  simp only [isSpace, upperC, isLowerA, Bool.or_eq_true, Bool.and_eq_true, decide_eq_true_eq]
  split_ifs <;> omega

theorem lowerC_ne95 {c : Nat} (h : c ≠ 95) : lowerC c ≠ 95 := by
  simp only [lowerC, isUpperA, Bool.and_eq_true, decide_eq_true_eq]
  split_ifs <;> omega

theorem upperC_ne95 {c : Nat} (h : c ≠ 95) : upperC c ≠ 95 := by
  simp only [upperC, isLowerA, Bool.and_eq_true, decide_eq_true_eq]
  split_ifs <;> omega

/-! ### Facts about strip and title -/

theorem pystrip_eq (l : PyStr) :
    pystrip l = List.rdropWhile isSpace (l.dropWhile isSpace) := rfl

theorem dropWhile_pystrip (l : PyStr) :
    (pystrip l).dropWhile isSpace = pystrip l := by
  rw [pystrip_eq, List.dropWhile_eq_self_iff]
  intro hl
  have hpre : List.rdropWhile isSpace (l.dropWhile isSpace) <+: l.dropWhile isSpace :=
    List.rdropWhile_prefix _ _
  have hlen : 0 < (l.dropWhile isSpace).length :=
    Nat.lt_of_lt_of_le hl hpre.length_le
  have hget := List.IsPrefix.getElem hpre hl
  have hhead := List.dropWhile_get_zero_not isSpace l hlen
  simp only [List.get_eq_getElem] at hhead ⊢
  rw [hget]
  exact hhead

theorem rdropWhile_pystrip (l : PyStr) :
    List.rdropWhile isSpace (pystrip l) = pystrip l := by
  rw [pystrip_eq, List.rdropWhile_idempotent]

theorem pystrip_idem (l : PyStr) : pystrip (pystrip l) = pystrip l := by
  conv_lhs => rw [pystrip_eq, dropWhile_pystrip]
  exact rdropWhile_pystrip l

theorem dropWhile_map_of_pres {f : Nat → Nat} {p : Nat → Bool}
    (hf : ∀ c, p (f c) = p c) (l : PyStr) :
    (l.map f).dropWhile p = (l.dropWhile p).map f := by
  rw [List.dropWhile_map]
  have : (p ∘ f) = p := funext hf
  rw [this]

theorem pystrip_map_of_pres {f : Nat → Nat} (hf : ∀ c, isSpace (f c) = isSpace c)
    (l : PyStr) : pystrip (l.map f) = (pystrip l).map f := by
  simp only [pystrip]
  rw [dropWhile_map_of_pres hf, ← List.map_reverse, dropWhile_map_of_pres hf,
    ← List.map_reverse]

theorem titleGo_map_isSpace (b : Bool) (l : PyStr) :
    (titleGo b l).map isSpace = l.map isSpace := by
  induction l generalizing b with
  | nil => rfl
  | cons c rest ih =>
    simp only [titleGo]
    split
    · next ha =>
      have hsp : isSpace (if b then lowerC c else upperC c) = isSpace c := by
        cases b <;> simp [isSpace_lowerC, isSpace_upperC]
      simp [hsp, ih]
    · simp [ih]

theorem pylower_titleGo (b : Bool) (l : PyStr) : pylower (titleGo b l) = pylower l := by
  induction l generalizing b with
  | nil => rfl
  | cons c rest ih =>
    simp only [titleGo]
    split
    · next ha =>
      have hlc : lowerC (if b then lowerC c else upperC c) = lowerC c := by
        cases b <;> simp [lowerC_lowerC, lowerC_upperC]
      have h2 := ih true
      simp only [pylower, List.map_cons] at h2 ⊢
      rw [hlc, h2]
    · next ha =>
      have h2 := ih false
      simp only [pylower, List.map_cons] at h2 ⊢
      rw [h2]

theorem titleGo_idem (b : Bool) (l : PyStr) : titleGo b (titleGo b l) = titleGo b l := by
  induction l generalizing b with
  | nil => rfl
  | cons c rest ih =>
    by_cases ha : isAlphaA c = true
    · have step1 : titleGo b (c :: rest) =
          (if b then lowerC c else upperC c) :: titleGo true rest := by
        simp [titleGo, ha]
      have ha2 : isAlphaA (if b then lowerC c else upperC c) = true := by
        cases b <;> simp [isAlphaA_lowerC, isAlphaA_upperC, ha]
      have hc2 : (if b then lowerC (if b then lowerC c else upperC c)
          else upperC (if b then lowerC c else upperC c)) =
          (if b then lowerC c else upperC c) := by
        cases b <;> simp [lowerC_lowerC, upperC_upperC]
      rw [step1]
      simp only [titleGo, ha2, if_true]
      rw [hc2, ih true]
    · have step1 : titleGo b (c :: rest) = c :: titleGo false rest := by
        simp [titleGo, ha]
      rw [step1]
      simp only [titleGo]
      rw [if_neg ha, ih false]

theorem strip_fix_of_spacemap {x y : PyStr} (hm : x.map isSpace = y.map isSpace)
    (hy : pystrip y = y) : pystrip x = x := by
  have hyd : y.dropWhile isSpace = y := by
    conv_lhs => rw [← hy, dropWhile_pystrip, hy]
  have hyr : List.rdropWhile isSpace y = y := by
    conv_lhs => rw [← hy, rdropWhile_pystrip, hy]
  have hlen : x.length = y.length := by
    have := congrArg List.length hm
    simpa using this
  have hxd : x.dropWhile isSpace = x := by
    rw [List.dropWhile_eq_self_iff]
    intro hl
    have hly : 0 < y.length := hlen ▸ hl
    have hq := congrArg (fun l : List Bool => l.get? 0) hm
    simp only [List.get?_map] at hq
    rw [List.get?_eq_get hl, List.get?_eq_get hly] at hq
    simp only [Option.map_some', Option.some.injEq] at hq
    rw [List.dropWhile_eq_self_iff] at hyd
    have hny := hyd hly
    rw [hq]
    exact hny
  have hxr : List.rdropWhile isSpace x = x := by
    rw [List.rdropWhile_eq_self_iff]
    intro hne
    have hyne : y ≠ [] := by
      intro hcon
      apply hne
      have : y.length = 0 := by simp [hcon]
      have : x.length = 0 := by omega
      exact List.eq_nil_of_length_eq_zero this
    have hlast : isSpace (x.getLast hne) = isSpace (y.getLast hyne) := by
      have h1 : (x.map isSpace).getLast? = (y.map isSpace).getLast? := by rw [hm]
      rw [List.getLast?_map, List.getLast?_map] at h1
      rw [List.getLast?_eq_getLast _ hne, List.getLast?_eq_getLast _ hyne] at h1
      simpa using h1
    rw [List.rdropWhile_eq_self_iff] at hyr
    have hny := hyr hyne
    rw [hlast]
    exact hny
  rw [pystrip_eq, hxd, hxr]

theorem titleGo_ne95 {l : PyStr} (h : ∀ c ∈ l, c ≠ 95) (b : Bool) :
    ∀ x ∈ titleGo b l, x ≠ 95 := by
  induction l generalizing b with
  | nil => simp [titleGo]
  | cons c rest ih =>
    intro x hx
    simp only [titleGo] at hx
    split at hx
    · rcases List.mem_cons.mp hx with rfl | hx2
      · have hc : c ≠ 95 := h c (by simp)
        cases b
        · simpa using upperC_ne95 hc
        · simpa using lowerC_ne95 hc
      · exact ih (fun d hd => h d (by simp [hd])) true x hx2
    · rcases List.mem_cons.mp hx with rfl | hx2
      · exact h x (by simp)
      · exact ih (fun d hd => h d (by simp [hd])) false x hx2

/-! ### The key normalizer is idempotent (claim C9) -/

theorem underscoreToSpace_eq_self {l : PyStr} (h : ∀ c ∈ l, c ≠ 95) :
    underscoreToSpace l = l := by
  induction l with
  | nil => rfl
  | cons c r ih =>
    simp only [underscoreToSpace, List.map_cons]
    rw [if_neg (h c (by simp))]
    have := ih (fun d hd => h d (by simp [hd]))
    simp only [underscoreToSpace] at this
    rw [this]

theorem underscoreToSpace_ne95 (l : PyStr) : ∀ x ∈ underscoreToSpace l, x ≠ 95 := by
  intro x hx
  obtain ⟨c, _, rfl⟩ := List.mem_map.mp hx
  by_cases hc : c = 95 <;> simp [hc]

theorem mem_pystrip {x : Nat} {l : PyStr} (h : x ∈ pystrip l) : x ∈ l := by
  rw [pystrip_eq] at h
  exact (List.dropWhile_suffix isSpace).subset
    ((List.rdropWhile_prefix isSpace (l.dropWhile isSpace)).subset h)

theorem special_cases_fixed : ∀ p ∈ special_cases, format_column_name p.2 = p.2 := by decide

theorem tableLookup_fixed {k v : PyStr} (h : tableLookup k = some v) :
    format_column_name v = v := by
  unfold tableLookup at h
  cases hf : special_cases.find? (fun p => p.1 = k) with
  | none => rw [hf] at h; simp at h
  | some p =>
    rw [hf] at h
    simp at h
    rw [← h]
    exact special_cases_fixed p (List.mem_of_find?_eq_some hf)

/-- C9: the key normalizer is idempotent — every output of
`format_column_name`, whether from the synonym table or the title-case
fallback, is a fixed point of `format_column_name`. -/
theorem format_column_name_idem (k : PyStr) :
    format_column_name (format_column_name k) = format_column_name k := by
  cases htl : tableLookup (pystrip (pylower (underscoreToSpace k))) with
  | some v =>
    have hk : format_column_name k = v := by
      simp only [format_column_name, htl]
    rw [hk]
    exact tableLookup_fixed htl
  | none =>
    have hk : format_column_name k = pytitle (pystrip (underscoreToSpace k)) := by
      simp only [format_column_name, htl]
    rw [hk]
    have h95y : ∀ c ∈ pystrip (underscoreToSpace k), c ≠ 95 :=
      fun c hc => underscoreToSpace_ne95 k c (mem_pystrip hc)
    have h95T : ∀ x ∈ pytitle (pystrip (underscoreToSpace k)), x ≠ 95 :=
      titleGo_ne95 h95y false
    have hu : underscoreToSpace (pytitle (pystrip (underscoreToSpace k))) =
        pytitle (pystrip (underscoreToSpace k)) := underscoreToSpace_eq_self h95T
    have hKL : pystrip (pylower (pytitle (pystrip (underscoreToSpace k)))) =
        pystrip (pylower (underscoreToSpace k)) := by
      rw [show pylower (pytitle (pystrip (underscoreToSpace k))) =
            pylower (pystrip (underscoreToSpace k)) from pylower_titleGo false _]
      rw [show pylower (pystrip (underscoreToSpace k)) =
            pystrip (pylower (underscoreToSpace k)) from
        (pystrip_map_of_pres isSpace_lowerC _).symm]
      exact pystrip_idem _
    have hTfix : pystrip (pytitle (pystrip (underscoreToSpace k))) =
        pytitle (pystrip (underscoreToSpace k)) :=
      strip_fix_of_spacemap (titleGo_map_isSpace false _) (pystrip_idem _)
    simp only [format_column_name, hu, hKL, htl, hTfix]
    exact titleGo_idem false _

theorem pipe_core (o0 o1 o2 o3 : Option PyStr) :
    pipeSet (pipeSet (pipeSet (pipeSet
      [ (st "Application Name", none), (st "Environment", none)
      , (st "Owner", none), (st "Cost", none) ]
      (st "Application Name") o0) (st "Environment") o1) (st "Owner") o2) (st "Cost") o3 =
    [ (st "Application Name", cellOf o0), (st "Environment", cellOf o1)
    , (st "Owner", cellOf o2), (st "Cost", cellOf o3) ] := by
  rcases o0 with _ | p0 <;> rcases o1 with _ | p1 <;>
    rcases o2 with _ | p2 <;> rcases o3 with _ | p3 <;>
    simp only [pipeSet, cellOf] <;> split_ifs <;> simp +decide [dictInsert]

/-- C7 (amended): the pipe-list parser assigns trimmed segments by fixed
position to the four hardcoded fields; with fewer than four (non-empty)
segments the unfilled fields are still present in the returned map,
mapped to an explicit null — and the four-segment fixture parses to the
expected four-field mapping. -/
theorem pipe_positional_fields :
    (∀ t : PyStr, _parse_pipe_separated_format t =
      [ (st "Application Name", pipeSeg t 0), (st "Environment", pipeSeg t 1)
      , (st "Owner", pipeSeg t 2), (st "Cost", pipeSeg t 3) ]) ∧
    parse_tags (some (st "myapp|production|john|1000")) =
      [ (st "Application Name", some (st "myapp"))
      , (st "Environment", some (st "production"))
      , (st "Owner", some (st "john"))
      , (st "Cost", some (st "1000")) ] := by
  constructor
  · intro t
    simp only [_parse_pipe_separated_format, pipeSeg]
    exact pipe_core _ _ _ _
  · decide

/-- C7 (counterexample to the claim as stated): for a two-segment pipe
string the unfilled `Owner` field is NOT absent from the returned map —
it is present, mapped to null. -/
theorem pipe_missing_fields_present :
    (st "Owner") ∈ dictKeys (parse_tags (some (st "myapp|production"))) ∧
    dictGet (parse_tags (some (st "myapp|production"))) (st "Owner") = some none := by
  decide

theorem parse_tags_some_eq (s : PyStr) :
    parse_tags (some s) =
      if (pystrip s).isEmpty then [] else specDetect (pystrip s) := rfl

/-- C2: for every tag string, `parse_tags` realizes exactly the spec's
fixed grammar-selection order on the trimmed string. -/
theorem parse_tags_follows_spec_detection (s : PyStr) :
    parse_tags (some s) =
      if (pystrip s).isEmpty then [] else specDetect (pystrip s) :=
  parse_tags_some_eq s

theorem specDetect_no_format {t0 : PyStr}
    (hbr : ¬((unescapeIfNeeded t0).head? = some 123 ∧
      (unescapeIfNeeded t0).getLast? = some 125))
    (h58 : (unescapeIfNeeded t0).contains 58 = false)
    (h124 : (unescapeIfNeeded t0).contains 124 = false) :
    specDetect t0 = [] := by
  have hbF : ((unescapeIfNeeded t0).head? = some 123 &&
      (unescapeIfNeeded t0).getLast? = some 125) = false := by
    by_cases hA : (unescapeIfNeeded t0).head? = some 123
    · by_cases hB : (unescapeIfNeeded t0).getLast? = some 125
      · exact absurd ⟨hA, hB⟩ hbr
      · simp [hB]
    · simp [hA]
  have hcond : (((unescapeIfNeeded t0).head? = some 123 &&
      (unescapeIfNeeded t0).getLast? = some 125) ||
      ((unescapeIfNeeded t0).contains 34 && (unescapeIfNeeded t0).contains 58)) = false := by
    rw [hbF, h58]
    simp
  simp only [specDetect]
  rw [if_neg (by rw [hcond]; simp), if_neg (by rw [h58]; simp), if_neg (by rw [h124]; simp)]

theorem specDetect_json_degrades {t0 : PyStr}
    (hj : (((unescapeIfNeeded t0).head? = some 123 &&
        (unescapeIfNeeded t0).getLast? = some 125) ||
      ((unescapeIfNeeded t0).contains 34 && (unescapeIfNeeded t0).contains 58)) = true)
    (hjson : _parse_json_format (unescapeIfNeeded t0) = [])
    (hesc : _parse_escaped_key_value_format (unescapeIfNeeded t0) = []) :
    specDetect t0 = [] := by
  simp only [specDetect]
  rw [if_pos hj]
  simp [hjson, hesc]

/-- C1: `parse_tags` is a total function (no exception escapes), and on
a null input, an input that trims to nothing, an input matching no
grammar, and an input routed to the JSON parser on which both the JSON
parser and the escaped-pairs fallback produce nothing, it returns the
empty map. -/
theorem parse_tags_degrades_to_empty :
    parse_tags none = [] ∧
    (∀ s : PyStr, pystrip s = [] → parse_tags (some s) = []) ∧
    (∀ s : PyStr,
      ¬((detectInput s).head? = some 123 ∧ (detectInput s).getLast? = some 125) →
      (detectInput s).contains 58 = false →
      (detectInput s).contains 124 = false →
      parse_tags (some s) = []) ∧
    (∀ s : PyStr,
      (((detectInput s).head? = some 123 && (detectInput s).getLast? = some 125) ||
        ((detectInput s).contains 34 && (detectInput s).contains 58)) = true →
      _parse_json_format (detectInput s) = [] →
      _parse_escaped_key_value_format (detectInput s) = [] →
      parse_tags (some s) = []) := by
  refine ⟨rfl, ?_, ?_, ?_⟩
  · intro s h
    rw [parse_tags_some_eq]
    simp [h]
  · intro s hbr h58 h124
    rw [parse_tags_some_eq]
    by_cases he : (pystrip s).isEmpty
    · simp [he]
    · simp only [he, if_false, Bool.false_eq_true]
      exact specDetect_no_format hbr h58 h124
  · intro s hj hjson hesc
    rw [parse_tags_some_eq]
    by_cases he : (pystrip s).isEmpty
    · simp [he]
    · simp only [he, if_false, Bool.false_eq_true]
      exact specDetect_json_degrades hj hjson hesc

/-- Witness for C1: the empty-map degradations at concrete inputs — a
whitespace-only string, a string matching no grammar, and a quoted
string routed to the JSON parser on which both it and the fallback
yield nothing. -/
theorem parse_tags_degrades_to_empty_witness :
    parse_tags (some (st "   ")) = [] ∧
    parse_tags (some (st "no-format-here")) = [] ∧
    parse_tags (some (st "\"a\": b")) = [] :=
  ⟨parse_tags_degrades_to_empty.2.1 _ (by decide),
   parse_tags_degrades_to_empty.2.2.1 _ (by decide) (by decide) (by decide),
   parse_tags_degrades_to_empty.2.2.2 _ (by decide) (by decide) (by decide)⟩

/-! ### Positional index lemmas -/

theorem idx_lt_of_mem {a : PyStr} : ∀ {l : List PyStr}, a ∈ l → idx a l < l.length := by
  intro l h
  induction l with
  | nil => cases h
  | cons x xs ih =>
    simp only [idx]
    split
    · simp
    · next hne =>
      have : a ∈ xs := by
        rcases List.mem_cons.mp h with rfl | hm
        · exact absurd rfl hne
        · exact hm
      simpa using ih this

theorem idx_of_not_mem {a : PyStr} : ∀ {l : List PyStr}, a ∉ l → idx a l = l.length := by
  intro l h
  induction l with
  | nil => rfl
  | cons x xs ih =>
    simp only [idx]
    split
    · next he => exact absurd (he ▸ List.mem_cons_self x xs) h
    · simpa using ih (fun hm => h (List.mem_cons_of_mem x hm))

theorem idx_append_left {a : PyStr} {l : List PyStr} (h : a ∈ l) (l2 : List PyStr) :
    idx a (l ++ l2) = idx a l := by
  induction l with
  | nil => cases h
  | cons x xs ih =>
    simp only [List.cons_append, idx]
    split
    · rfl
    · next hne =>
      have : a ∈ xs := by
        rcases List.mem_cons.mp h with rfl | hm
        · exact absurd rfl hne
        · exact hm
      simp only [List.append_eq]
      rw [ih this]

theorem idx_append_right {a : PyStr} {l : List PyStr} (h : a ∉ l) (l2 : List PyStr) :
    idx a (l ++ l2) = l.length + idx a l2 := by
  induction l with
  | nil => simp [idx]
  | cons x xs ih =>
    simp only [List.cons_append, idx]
    split
    · next he => exact absurd (he ▸ List.mem_cons_self x xs) h
    · simp only [List.append_eq]
      rw [ih (fun hm => h (List.mem_cons_of_mem x hm))]
      simp only [List.length_cons]
      omega

theorem get?_map_idx {a : PyStr} {l : List PyStr} (h : a ∈ l) (f : PyStr → Cell) :
    (l.map f).get? (idx a l) = some (f a) := by
  induction l with
  | nil => cases h
  | cons x xs ih =>
    simp only [idx, List.map_cons]
    split
    · next he => simp [he]
    · next hne =>
      have : a ∈ xs := by
        rcases List.mem_cons.mp h with rfl | hm
        · exact absurd rfl hne
        · exact hm
      simpa using ih this

theorem get?_of_idx_ge {a : PyStr} {l : List PyStr} (h : a ∉ l) (r : List Cell)
    (hlen : r.length ≤ l.length) : r.get? (idx a l) = none := by
  rw [List.get?_eq_none]
  rw [idx_of_not_mem h]
  exact hlen

theorem set_map_idx {a : PyStr} {l : List PyStr} (hnd : l.Nodup) (h : a ∈ l)
    (f : PyStr → Cell) (v : Cell) :
    (l.map f).set (idx a l) v = l.map (fun c => if c = a then v else f c) := by
  induction l with
  | nil => cases h
  | cons x xs ih =>
    simp only [idx, List.map_cons]
    split
    · next he =>
      subst he
      simp only [List.set_cons_zero, if_pos rfl]
      congr 1
      have hnx : x ∉ xs := (List.nodup_cons.mp hnd).1
      refine (List.map_congr_left ?_).symm
      intro c hc
      rw [if_neg]
      intro hcx
      exact hnx (hcx ▸ hc)
    · next hne =>
      have hmem : a ∈ xs := by
        rcases List.mem_cons.mp h with rfl | hm
        · exact absurd rfl hne
        · exact hm
      simp only [List.set_cons_succ]
      rw [ih (List.nodup_cons.mp hnd).2 hmem]

theorem zip_filter_map {l : List PyStr} (f : PyStr → Cell) (q : PyStr → Bool) :
    ((l.zip (l.map f)).filter (fun p => q p.1)).map Prod.snd = (l.filter q).map f := by
  induction l with
  | nil => rfl
  | cons x xs ih =>
    simp only [List.map_cons, List.zip_cons_cons, List.filter_cons]
    by_cases hq : q x
    · simp only [hq, if_pos]
      simp only [List.map_cons, ih]
    · simp only [hq]
      simpa using ih

theorem zipWith_append_map (l : List (List Cell)) (f : List Cell → List Cell) :
    List.zipWith (· ++ ·) l (l.map f) = l.map (fun r => r ++ f r) := by
  induction l with
  | nil => rfl
  | cons x xs ih => simp [List.zipWith, ih]

/-! ### Column-union lemmas -/

theorem contains_iff_mem (l : List PyStr) (a : PyStr) : l.contains a = true ↔ a ∈ l := by
  simp

theorem unionCols_cons (acc : List PyStr) (x : PyStr) (xs : List PyStr) :
    unionCols acc (x :: xs) =
      unionCols (if acc.contains x then acc else acc ++ [x]) xs := rfl

theorem mem_unionCols (acc cs : List PyStr) (c : PyStr) :
    c ∈ unionCols acc cs ↔ c ∈ acc ∨ c ∈ cs := by
  induction cs generalizing acc with
  | nil => simp [unionCols]
  | cons x xs ih =>
    rw [unionCols_cons, ih]
    by_cases hx : x ∈ acc
    · rw [if_pos ((contains_iff_mem acc x).mpr hx)]
      simp only [List.mem_cons]
      constructor
      · rintro (h | h)
        · exact Or.inl h
        · exact Or.inr (Or.inr h)
      · rintro (h | rfl | h)
        · exact Or.inl h
        · exact Or.inl hx
        · exact Or.inr h
    · rw [if_neg (fun hc => hx ((contains_iff_mem acc x).mp hc))]
      simp only [List.mem_append, List.mem_cons, List.mem_singleton]
      tauto

theorem nodup_unionCols (cs : List PyStr) {acc : List PyStr} (h : acc.Nodup) :
    (unionCols acc cs).Nodup := by
  induction cs generalizing acc with
  | nil => simpa [unionCols]
  | cons x xs ih =>
    rw [unionCols_cons]
    apply ih
    split
    · exact h
    · next hx =>
      have hxm : x ∉ acc := fun hm => hx ((contains_iff_mem acc x).mpr hm)
      simp [List.nodup_append, h, hxm]

theorem mem_foldl_unionCols {β : Type} (f : β → List PyStr) (ds : List β)
    (acc : List PyStr) (c : PyStr) :
    c ∈ ds.foldl (fun a d => unionCols a (f d)) acc ↔
      c ∈ acc ∨ ∃ d ∈ ds, c ∈ f d := by
  induction ds generalizing acc with
  | nil => simp
  | cons d ds ih =>
    rw [List.foldl_cons, ih, mem_unionCols]
    simp only [List.mem_cons]
    constructor
    · rintro ((h | h) | ⟨e, he, hc⟩)
      · exact Or.inl h
      · exact Or.inr ⟨d, Or.inl rfl, h⟩
      · exact Or.inr ⟨e, Or.inr he, hc⟩
    · rintro (h | ⟨e, (rfl | he), hc⟩)
      · exact Or.inl (Or.inl h)
      · exact Or.inl (Or.inr hc)
      · exact Or.inr ⟨e, he, hc⟩

theorem nodup_foldl_unionCols {β : Type} (f : β → List PyStr) (ds : List β)
    {acc : List PyStr} (h : acc.Nodup) :
    (ds.foldl (fun a d => unionCols a (f d)) acc).Nodup := by
  induction ds generalizing acc with
  | nil => simpa
  | cons d ds ih =>
    rw [List.foldl_cons]
    exact ih (nodup_unionCols _ h)

theorem mem_firstAppear (ds : List EFMap) (c : PyStr) :
    c ∈ firstAppear ds ↔ ∃ d ∈ ds, c ∈ dictKeys d := by
  have := mem_foldl_unionCols dictKeys ds [] c
  simpa [firstAppear] using this

theorem nodup_firstAppear (ds : List EFMap) : (firstAppear ds).Nodup :=
  nodup_foldl_unionCols dictKeys ds List.nodup_nil

theorem dictGet_eq_none {d : EFMap} {c : PyStr} (h : c ∉ dictKeys d) :
    dictGet d c = none := by
  unfold dictGet
  rw [List.find?_eq_none.mpr]
  · rfl
  · intro p hp
    simp only [decide_eq_true_eq]
    intro hpc
    exact h (hpc ▸ List.mem_map_of_mem Prod.fst hp)

theorem mem_pfColsD (df : DataFrame) (tagCol : PyStr) (c : PyStr) :
    c ∈ pfColsD df tagCol ↔ c ∈ parsedCols df tagCol ∨ c = DATE_COL := by
  unfold pfColsD
  split
  · next h =>
    constructor
    · exact fun hm => Or.inl hm
    · rintro (hm | rfl)
      · exact hm
      · exact (contains_iff_mem _ _).mp h
  · simp

theorem date_mem_pfColsD (df : DataFrame) (tagCol : PyStr) :
    DATE_COL ∈ pfColsD df tagCol := (mem_pfColsD df tagCol _).mpr (Or.inr rfl)

theorem nodup_pfColsD (df : DataFrame) (tagCol : PyStr) : (pfColsD df tagCol).Nodup := by
  unfold pfColsD
  split
  · exact nodup_firstAppear _
  · next h =>
    have hd : DATE_COL ∉ parsedCols df tagCol :=
      fun hm => h ((contains_iff_mem _ _).mpr hm)
    have hn : (parsedCols df tagCol).Nodup := nodup_firstAppear _
    simp [List.nodup_append, hn, hd]

theorem mem_keptCols (df : DataFrame) (tagCol : PyStr) (c : PyStr) :
    c ∈ keptCols df tagCol ↔
      c ∈ pfColsD df tagCol ∧ ¬(c ∈ df.cols ∧ c ≠ tagCol) := by
  unfold keptCols
  rw [List.mem_filter]
  constructor
  · rintro ⟨h1, h2⟩
    refine ⟨h1, ?_⟩
    rintro ⟨hm, hne⟩
    simp only [Bool.not_eq_true', Bool.and_eq_false_iff] at h2
    rcases h2 with h2 | h2
    · exact absurd hm (by simpa using h2)
    · exact hne (by simpa using h2)
  · rintro ⟨h1, h2⟩
    refine ⟨h1, ?_⟩
    simp only [Bool.not_eq_true', Bool.and_eq_false_iff]
    by_cases hm : c ∈ df.cols
    · right
      by_contra hne
      exact h2 ⟨hm, by simpa using hne⟩
    · left
      simp [hm]

theorem nodup_keptCols (df : DataFrame) (tagCol : PyStr) : (keptCols df tagCol).Nodup :=
  List.Nodup.filter _ (nodup_pfColsD df tagCol)

theorem setDate_eq (df : DataFrame) (tagCol : PyStr) (dv : Cell) :
    dfSetCol (parsedFrame (rowMaps df tagCol)) DATE_COL dv =
      ⟨pfColsD df tagCol,
       (rowMaps df tagCol).map (fun d => (pfColsD df tagCol).map
         (fun c => if c = DATE_COL then dv else (dictGet d c).join))⟩ := by
  simp only [dfSetCol, parsedFrame, pfColsD, parsedCols]
  split
  · next h =>
    have hmem : DATE_COL ∈ firstAppear (rowMaps df tagCol) := (contains_iff_mem _ _).mp h
    congr 1
    rw [List.map_map]
    apply List.map_congr_left
    intro d _
    exact set_map_idx (nodup_firstAppear _) hmem _ dv
  · next h =>
    have hnm : DATE_COL ∉ firstAppear (rowMaps df tagCol) :=
      fun hm => h ((contains_iff_mem _ _).mpr hm)
    congr 1
    rw [List.map_map]
    apply List.map_congr_left
    intro d _
    have hmc : (firstAppear (rowMaps df tagCol)).map
        (fun c => if c = DATE_COL then dv else (dictGet d c).join) =
        (firstAppear (rowMaps df tagCol)).map (fun c => (dictGet d c).join) := by
      apply List.map_congr_left
      intro c hc
      have hcne : ¬(c = DATE_COL) := fun hce => hnm (hce ▸ hc)
      rw [if_neg hcne]
    simp only [Function.comp, List.map_append, List.map_cons, List.map_nil]
    rw [hmc]
    simp

theorem dropDup_eq (df : DataFrame) (tagCol : PyStr) (dv : Cell) :
    dfDropCols
      ⟨pfColsD df tagCol,
       (rowMaps df tagCol).map (fun d => (pfColsD df tagCol).map
         (fun c => if c = DATE_COL then dv else (dictGet d c).join))⟩
      ((pfColsD df tagCol).filter (fun c => df.cols.contains c && c ≠ tagCol)) =
      ⟨keptCols df tagCol,
       (rowMaps df tagCol).map (fun d => (keptCols df tagCol).map
         (fun c => if c = DATE_COL then dv else (dictGet d c).join))⟩ := by
  have hcong : ∀ c ∈ pfColsD df tagCol,
      (!(((pfColsD df tagCol).filter
        (fun c => df.cols.contains c && c ≠ tagCol)).contains c)) =
      (!(df.cols.contains c && c ≠ tagCol)) := by
    intro c hc
    congr 1
    rw [Bool.eq_iff_iff]
    constructor
    · intro hin
      have := List.mem_filter.mp ((contains_iff_mem _ _).mp hin)
      exact this.2
    · intro hp
      exact (contains_iff_mem _ _).mpr (List.mem_filter.mpr ⟨hc, hp⟩)
  have hcols : (pfColsD df tagCol).filter
      (fun c => !(((pfColsD df tagCol).filter
        (fun c => df.cols.contains c && c ≠ tagCol)).contains c)) = keptCols df tagCol := by
    unfold keptCols
    exact List.filter_congr hcong
  simp only [dfDropCols]
  rw [hcols]
  congr 1
  rw [List.map_map]
  apply List.map_congr_left
  intro d _
  simp only [Function.comp]
  have hz := zip_filter_map (l := pfColsD df tagCol)
    (fun c => if c = DATE_COL then dv else (dictGet d c).join)
    (fun c => !(((pfColsD df tagCol).filter
      (fun c => df.cols.contains c && c ≠ tagCol)).contains c))
  rw [hz, hcols]

theorem process_core_eq (df : DataFrame) (tagCol : PyStr) (dv : Cell) :
    process_core df tagCol dv =
      ⟨df.cols ++ keptCols df tagCol,
       df.rows.map (fun r => r ++ (keptCols df tagCol).map (parsedVal df tagCol dv r))⟩ := by
  simp only [process_core]
  rw [show df.rows.map (fun r => parse_tags ((r.get? (idx tagCol df.cols)).getD none)) =
      rowMaps df tagCol from rfl]
  rw [setDate_eq df tagCol dv]
  dsimp only
  rw [dropDup_eq df tagCol dv]
  simp only [hconcat]
  rw [show rowMaps df tagCol = df.rows.map (fun r => parse_tags (tagCell df tagCol r)) from rfl,
    List.map_map, zipWith_append_map]
  rfl

theorem date_mem_keptCols {df : DataFrame} (tagCol : PyStr) (hnd : DATE_COL ∉ df.cols) :
    DATE_COL ∈ keptCols df tagCol := by
  rw [mem_keptCols]
  exact ⟨date_mem_pfColsD df tagCol, fun h => hnd h.1⟩

theorem keys_sub_keptCols {df : DataFrame} {tagCol : PyStr} {r : List Cell}
    (hr : r ∈ df.rows) {c : PyStr} (hc : c ∈ dictKeys (parse_tags (tagCell df tagCol r)))
    (hnc : c ∉ df.cols) : c ∈ keptCols df tagCol := by
  rw [mem_keptCols]
  refine ⟨(mem_pfColsD df tagCol c).mpr (Or.inl ?_), fun h => hnc h.1⟩
  rw [parsedCols, mem_firstAppear]
  exact ⟨parse_tags (tagCell df tagCol r), List.mem_map_of_mem _ hr, hc⟩

theorem process_core_cell (df : DataFrame) (tagCol : PyStr) (dv : Cell)
    (Hrect : ∀ r ∈ df.rows, r.length = df.cols.length)
    (i : Nat) (hi : i < df.rows.length) (c : PyStr) :
    dfCell (process_core df tagCol dv) i c =
      if c ∈ df.cols then dfCell df i c
      else parsedVal df tagCol dv (df.rows.get ⟨i, hi⟩) c := by
  rw [process_core_eq]
  have hr : df.rows.get? i = some (df.rows.get ⟨i, hi⟩) := List.get?_eq_get hi
  have hrlen : (df.rows.get ⟨i, hi⟩).length = df.cols.length :=
    Hrect _ (df.rows.get_mem i hi)
  simp only [dfCell, List.get?_map, hr, Option.map_some', Option.getD_some]
  by_cases hc : c ∈ df.cols
  · rw [if_pos hc, idx_append_left hc]
    rw [List.get?_append (by rw [hrlen]; exact idx_lt_of_mem hc)]
  · rw [if_neg hc, idx_append_right hc]
    rw [List.get?_append_right (by omega)]
    have hsub : df.cols.length + idx c (keptCols df tagCol) -
        (df.rows.get ⟨i, hi⟩).length = idx c (keptCols df tagCol) := by omega
    rw [hsub]
    by_cases hk : c ∈ keptCols df tagCol
    · rw [get?_map_idx hk]
      rfl
    · rw [get?_of_idx_ge hk _ (by simp)]
      have hcd : c ≠ DATE_COL := by
        rintro rfl
        exact hk (date_mem_keptCols tagCol hc)
      have hkeys : c ∉ dictKeys (parse_tags (tagCell df tagCol (df.rows.get ⟨i, hi⟩))) :=
        fun hmem => hk (keys_sub_keptCols (df.rows.get_mem i hi) hmem hc)
      have hkeys2 : c ∉ dictKeys (parse_tags (tagCell df tagCol df.rows[i])) := by
        simpa using hkeys
      simp [parsedVal, hcd, dictGet_eq_none hkeys, dictGet_eq_none hkeys2]

/-! ### Merge precedence, the Date constant, and the missing-column error
(claims C5, C6, C8, C10) -/

/-- C5: an original field that collides with a canonical parsed field
name survives unchanged in the enriched record — in fact every original
column's cells are carried over unmodified — and the colliding parsed
field (when it is not the tag column itself) is dropped from the kept
parsed columns. -/
theorem original_fields_win (df : DataFrame) (tagCol : PyStr) (dv : Cell)
    (Hrect : ∀ r ∈ df.rows, r.length = df.cols.length) :
    (∀ i, i < df.rows.length → ∀ f ∈ df.cols,
      dfCell (process_core df tagCol dv) i f = dfCell df i f) ∧
    (∀ f ∈ df.cols, f ≠ tagCol → f ∉ keptCols df tagCol) := by
  constructor
  · intro i hi f hf
    rw [process_core_cell df tagCol dv Hrect i hi f, if_pos hf]
  · intro f hf hne h
    rw [mem_keptCols] at h
    exact h.2 ⟨hf, hne⟩

/-- Witness for C5: the original `Owner` column survives unchanged and
the parsed `Owner` field is dropped. -/
theorem original_fields_win_witness :
    dfCell (process_core sampleDF TAG_COLUMN none) 0 (st "Owner") =
      dfCell sampleDF 0 (st "Owner") ∧
    (st "Owner") ∉ keptCols sampleDF TAG_COLUMN :=
  ⟨(original_fields_win sampleDF TAG_COLUMN none (by decide)).1 0 (by decide) _ (by decide),
   (original_fields_win sampleDF TAG_COLUMN none (by decide)).2 _ (by decide) (by decide)⟩

/-- C6 (amended): the per-run `Date` constant is injected into every
record when the input has no original `Date` column; when an original
`Date` column exists, the original values win and the constant is
dropped like any colliding parsed field. -/
theorem date_constant_injection (df : DataFrame) (tagCol : PyStr) (dv : Cell)
    (Hrect : ∀ r ∈ df.rows, r.length = df.cols.length)
    (i : Nat) (hi : i < df.rows.length) :
    dfCell (process_core df tagCol dv) i DATE_COL =
      if DATE_COL ∈ df.cols then dfCell df i DATE_COL else dv := by
  rw [process_core_cell df tagCol dv Hrect i hi DATE_COL]
  by_cases hd : DATE_COL ∈ df.cols
  · rw [if_pos hd, if_pos hd]
  · rw [if_neg hd, if_neg hd]
    simp [parsedVal]

/-- Witness for C6's amended claim, at a frame without a `Date` column. -/
theorem date_constant_injection_witness :
    dfCell (process_core sampleDF TAG_COLUMN (some (st "2024-01"))) 0 DATE_COL =
      (if DATE_COL ∈ sampleDF.cols then dfCell sampleDF 0 DATE_COL
       else some (st "2024-01")) :=
  date_constant_injection sampleDF TAG_COLUMN (some (st "2024-01")) (by decide) 0 (by decide)

/-- C6 (counterexample to the claim as stated): when the input already
has a `Date` column, the supplied constant is NOT present in the output
record — the original value is. -/
theorem date_not_unconditional :
    dfCell (process_core dateDF TAG_COLUMN (some (st "2024-01"))) 0 DATE_COL =
      some (st "2020-01") ∧
    (some (st "2020-01") : Cell) ≠ some (st "2024-01") := by
  decide

/-- C10: when the tag column exists and no original `Date` column does,
`process_dataframe` succeeds and creates a `Date` column whose value in
every row is exactly the `date_value` argument — including
`date_value = None`, where every record carries an explicit null. -/
theorem date_column_created (df : DataFrame) (tagCol : PyStr) (dv : Cell)
    (htag : tagCol ∈ df.cols) (hnd : DATE_COL ∉ df.cols)
    (Hrect : ∀ r ∈ df.rows, r.length = df.cols.length) :
    process_dataframe df tagCol dv = .ok (process_core df tagCol dv) ∧
    DATE_COL ∈ (process_core df tagCol dv).cols ∧
    ∀ i, i < df.rows.length → dfCell (process_core df tagCol dv) i DATE_COL = dv := by
  refine ⟨?_, ?_, ?_⟩
  · unfold process_dataframe
    rw [if_pos ((contains_iff_mem _ _).mpr htag)]
  · rw [process_core_eq]
    exact List.mem_append.mpr (Or.inr (date_mem_keptCols tagCol hnd))
  · intro i hi
    rw [process_core_cell df tagCol dv Hrect i hi, if_neg hnd]
    simp [parsedVal]

/-- Witness for C10 with `date_value = None`. -/
theorem date_column_created_witness :
    process_dataframe sampleDF TAG_COLUMN none =
      .ok (process_core sampleDF TAG_COLUMN none) ∧
    DATE_COL ∈ (process_core sampleDF TAG_COLUMN none).cols ∧
    dfCell (process_core sampleDF TAG_COLUMN none) 0 DATE_COL = none :=
  ⟨(date_column_created sampleDF TAG_COLUMN none (by decide) (by decide) (by decide)).1,
   (date_column_created sampleDF TAG_COLUMN none (by decide) (by decide) (by decide)).2.1,
   (date_column_created sampleDF TAG_COLUMN none (by decide) (by decide) (by decide)).2.2
     0 (by decide)⟩

/-- C8: `process_dataframe` raises if and only if the configured tag
column is absent from the frame's columns; when it is present the run
proceeds for every row whatever the tag content, and every enriched
cell outside the original columns and the `Date` constant is exactly
the Format Detector's output for that record, unchanged. -/
theorem missing_tag_column_aborts :
    (∀ (df : DataFrame) (tagCol : PyStr) (dv : Cell),
      (∃ e, process_dataframe df tagCol dv = .error e) ↔ tagCol ∉ df.cols) ∧
    (∀ (df : DataFrame) (tagCol : PyStr) (dv : Cell),
      (∀ r ∈ df.rows, r.length = df.cols.length) →
      tagCol ∈ df.cols →
      process_dataframe df tagCol dv = .ok (process_core df tagCol dv) ∧
      ∀ i (hi : i < df.rows.length) (c : PyStr), c ∉ df.cols → c ≠ DATE_COL →
        dfCell (process_core df tagCol dv) i c =
          (dictGet (parse_tags (tagCell df tagCol (df.rows.get ⟨i, hi⟩))) c).join) := by
  constructor
  · intro df tagCol dv
    unfold process_dataframe
    by_cases h : tagCol ∈ df.cols
    · rw [if_pos ((contains_iff_mem _ _).mpr h)]
      constructor
      · rintro ⟨e, he⟩
        simp at he
      · intro hn
        exact absurd h hn
    · rw [if_neg (fun hc => h ((contains_iff_mem _ _).mp hc))]
      exact ⟨fun _ => h, fun _ => ⟨_, rfl⟩⟩
  · intro df tagCol dv Hrect htag
    constructor
    · unfold process_dataframe
      rw [if_pos ((contains_iff_mem _ _).mpr htag)]
    · intro i hi c hc hcd
      rw [process_core_cell df tagCol dv Hrect i hi c, if_neg hc]
      simp [parsedVal, hcd]

/-! ### Chunking and row-concatenation lemmas (claims C3 and C4) -/

theorem chunkList_cons {α : Type} (b : Nat) (x : α) (xs : List α) :
    chunkList b (x :: xs) =
      (x :: xs).take (max b 1) :: chunkList b ((x :: xs).drop (max b 1)) := by
  rw [chunkList]

theorem chunkList_join {α : Type} (b : Nat) (l : List α) :
    (chunkList b l).join = l := by
  have H : ∀ (n : Nat) (l : List α), l.length = n → (chunkList b l).join = l := by
    intro n
    induction n using Nat.strong_induction_on with
    | _ n ih =>
      intro l hn
      cases l with
      | nil => simp [chunkList]
      | cons x xs =>
        rw [chunkList_cons]
        rw [show ∀ (a : List α) (L : List (List α)), (a :: L).join = a ++ L.join
          from fun a L => rfl]
        have hlt : ((x :: xs).drop (max b 1)).length < n := by
          subst hn
          simp only [List.length_drop, List.length_cons]
          omega
        rw [ih _ hlt _ rfl]
        exact List.take_append_drop _ _
  exact H l.length l rfl

theorem mem_of_mem_chunkList {α : Type} {b : Nat} {l : List α} {rs : List α}
    (hrs : rs ∈ chunkList b l) {r : α} (hr : r ∈ rs) : r ∈ l := by
  rw [← chunkList_join b l]
  exact List.mem_join.mpr ⟨rs, hrs, hr⟩

theorem exists_chunk_of_mem {α : Type} {b : Nat} {l : List α} {r : α} (hr : r ∈ l) :
    ∃ rs ∈ chunkList b l, r ∈ rs := by
  rw [← chunkList_join b l] at hr
  exact List.mem_join.mp hr

theorem chunkList_ne_nil {α : Type} {b : Nat} {l : List α} (h : l ≠ []) :
    chunkList b l ≠ [] := by
  cases l with
  | nil => exact absurd rfl h
  | cons x xs =>
    rw [chunkList_cons]
    exact List.cons_ne_nil _ _

theorem join_map_map {α β : Type} (g : α → β) (chunks : List (List α)) :
    (chunks.map (fun rs => rs.map g)).join = chunks.join.map g := by
  induction chunks with
  | nil => rfl
  | cons rs rest ih =>
    rw [List.map_cons]
    rw [show ∀ (a : List β) (L : List (List β)), (a :: L).join = a ++ L.join
      from fun a L => rfl]
    rw [show (rs :: rest).join = rs ++ rest.join from rfl]
    rw [List.map_append, ih]

theorem concatRows_cols (dfs : List DataFrame) : (concatRows dfs).cols = concatCols dfs := rfl

theorem mem_concatCols (dfs : List DataFrame) (c : PyStr) :
    c ∈ concatCols dfs ↔ ∃ d ∈ dfs, c ∈ d.cols := by
  have := mem_foldl_unionCols DataFrame.cols dfs [] c
  simpa [concatCols] using this

theorem nodup_concatCols (dfs : List DataFrame) : (concatCols dfs).Nodup :=
  nodup_foldl_unionCols DataFrame.cols dfs List.nodup_nil

theorem flatMap_eq_join_map {α β : Type} (f : α → List β) (l : List α) :
    l.flatMap f = (l.map f).join := by
  induction l with
  | nil => rfl
  | cons x xs ih =>
    rw [List.flatMap_cons, List.map_cons, ih]
    rw [show ∀ (a : List β) (L : List (List β)), (a :: L).join = a ++ L.join
      from fun a L => rfl]

theorem align_cell (df : DataFrame) (tagCol : PyStr) (dv : Cell) (rs : List (List Cell))
    {r : List Cell} (hr : r ∈ rs) (hlen : r.length = df.cols.length) (c : PyStr) :
    (if (df.cols ++ keptCols ⟨df.cols, rs⟩ tagCol).contains c then
      ((r ++ (keptCols ⟨df.cols, rs⟩ tagCol).map
        (parsedVal ⟨df.cols, rs⟩ tagCol dv r)).get?
        (idx c (df.cols ++ keptCols ⟨df.cols, rs⟩ tagCol))).getD none
     else none) = rowVal df tagCol dv r c := by
  by_cases hin : c ∈ df.cols ++ keptCols ⟨df.cols, rs⟩ tagCol
  · rw [if_pos ((contains_iff_mem _ _).mpr hin)]
    by_cases hc : c ∈ df.cols
    · rw [idx_append_left hc, List.get?_append (by rw [hlen]; exact idx_lt_of_mem hc)]
      rw [rowVal, if_pos hc]
    · have hk : c ∈ keptCols ⟨df.cols, rs⟩ tagCol := by
        rcases List.mem_append.mp hin with h | h
        · exact absurd h hc
        · exact h
      rw [idx_append_right hc]
      rw [List.get?_append_right (by omega)]
      have hsub : df.cols.length + idx c (keptCols ⟨df.cols, rs⟩ tagCol) - r.length =
          idx c (keptCols ⟨df.cols, rs⟩ tagCol) := by omega
      rw [hsub, get?_map_idx hk]
      rw [rowVal, if_neg hc]
      rfl
  · rw [if_neg (fun hcon => hin ((contains_iff_mem _ _).mp hcon))]
    have hc : c ∉ df.cols := fun h => hin (List.mem_append.mpr (Or.inl h))
    have hk : c ∉ keptCols ⟨df.cols, rs⟩ tagCol :=
      fun h => hin (List.mem_append.mpr (Or.inr h))
    have hcd : c ≠ DATE_COL := by
      rintro rfl
      exact hk (date_mem_keptCols tagCol hc)
    have hkeys : c ∉ dictKeys (parse_tags (tagCell df tagCol r)) :=
      fun hmem => hk (@keys_sub_keptCols ⟨df.cols, rs⟩ tagCol r hr c hmem hc)
    rw [rowVal, if_neg hc, parsedVal, if_neg hcd, dictGet_eq_none hkeys]
    rfl

theorem pipelineRun_rows (b : Nat) (df : DataFrame) (tagCol : PyStr) (dv : Cell)
    (Hrect : ∀ r ∈ df.rows, r.length = df.cols.length) :
    (pipelineRun b df tagCol dv).rows =
      df.rows.map (fun r => (pipelineRun b df tagCol dv).cols.map (rowVal df tagCol dv r)) := by
  have hcore : ∀ rs : List (List Cell), process_core ⟨df.cols, rs⟩ tagCol dv =
      ⟨df.cols ++ keptCols ⟨df.cols, rs⟩ tagCol,
       rs.map (fun r => r ++ (keptCols ⟨df.cols, rs⟩ tagCol).map
         (parsedVal ⟨df.cols, rs⟩ tagCol dv r))⟩ :=
    fun rs => process_core_eq ⟨df.cols, rs⟩ tagCol dv
  have hrows : (pipelineRun b df tagCol dv).rows =
      ((chunkList b df.rows).map (fun rs => process_core ⟨df.cols, rs⟩ tagCol dv)).flatMap
        (fun d => d.rows.map (fun row =>
          (pipelineRun b df tagCol dv).cols.map (fun c =>
            if d.cols.contains c then (row.get? (idx c d.cols)).getD none else none))) := rfl
  rw [hrows, flatMap_eq_join_map, List.map_map]
  have hchunk : ∀ rs ∈ chunkList b df.rows,
      ((fun d => d.rows.map (fun row =>
          (pipelineRun b df tagCol dv).cols.map (fun c =>
            if d.cols.contains c then (row.get? (idx c d.cols)).getD none else none))) ∘
        (fun rs => process_core ⟨df.cols, rs⟩ tagCol dv)) rs =
      rs.map (fun r =>
        (pipelineRun b df tagCol dv).cols.map (rowVal df tagCol dv r)) := by
    intro rs hrs
    simp only [Function.comp]
    rw [hcore rs]
    dsimp only
    rw [List.map_map]
    apply List.map_congr_left
    intro r hr
    simp only [Function.comp]
    apply List.map_congr_left
    intro c _
    exact align_cell df tagCol dv rs hr
      (Hrect r (mem_of_mem_chunkList hrs hr)) c
  rw [List.map_congr_left hchunk, join_map_map, chunkList_join]

theorem pipelineRun_cols_mem (b : Nat) (df : DataFrame) (tagCol : PyStr) (dv : Cell)
    (hne : df.rows ≠ []) (c : PyStr) :
    c ∈ (pipelineRun b df tagCol dv).cols ↔
      c ∈ df.cols ∨ c = DATE_COL ∨
        ∃ r ∈ df.rows, c ∈ dictKeys (parse_tags (tagCell df tagCol r)) := by
  have hcols : (pipelineRun b df tagCol dv).cols =
      concatCols ((chunkList b df.rows).map
        (fun rs => process_core ⟨df.cols, rs⟩ tagCol dv)) := rfl
  rw [hcols, mem_concatCols]
  constructor
  · rintro ⟨d, hd, hcd⟩
    obtain ⟨rs, hrs, rfl⟩ := List.mem_map.mp hd
    rw [process_core_eq] at hcd
    dsimp only at hcd
    rcases List.mem_append.mp hcd with h | h
    · exact Or.inl h
    · rw [mem_keptCols] at h
      obtain ⟨hpf, _⟩ := h
      rcases (mem_pfColsD _ _ _).mp hpf with hpc | rfl
      · right; right
        rw [parsedCols, mem_firstAppear] at hpc
        obtain ⟨d', hd', hcd'⟩ := hpc
        obtain ⟨r, hrmem, rfl⟩ := List.mem_map.mp hd'
        exact ⟨r, mem_of_mem_chunkList hrs hrmem, hcd'⟩
      · exact Or.inr (Or.inl rfl)
  · intro h
    obtain ⟨rs0, hrs0⟩ : ∃ rs, rs ∈ chunkList b df.rows :=
      List.exists_mem_of_ne_nil _ (chunkList_ne_nil hne)
    rcases h with h | rfl | ⟨r, hr, hkey⟩
    · refine ⟨_, List.mem_map_of_mem _ hrs0, ?_⟩
      rw [process_core_eq]
      exact List.mem_append.mpr (Or.inl h)
    · refine ⟨_, List.mem_map_of_mem _ hrs0, ?_⟩
      rw [process_core_eq]
      by_cases hd : DATE_COL ∈ df.cols
      · exact List.mem_append.mpr (Or.inl hd)
      · exact List.mem_append.mpr (Or.inr (date_mem_keptCols tagCol hd))
    · by_cases hc2 : c ∈ df.cols
      · refine ⟨_, List.mem_map_of_mem _ hrs0, ?_⟩
        rw [process_core_eq]
        exact List.mem_append.mpr (Or.inl hc2)
      · obtain ⟨rs, hrs, hrmem⟩ := exists_chunk_of_mem (b := b) hr
        refine ⟨_, List.mem_map_of_mem _ hrs, ?_⟩
        rw [process_core_eq]
        exact List.mem_append.mpr
          (Or.inr (@keys_sub_keptCols ⟨df.cols, rs⟩ tagCol r hrmem c hkey hc2))

theorem pipelineRun_cell (b : Nat) (df : DataFrame) (tagCol : PyStr) (dv : Cell)
    (Hrect : ∀ r ∈ df.rows, r.length = df.cols.length)
    (i : Nat) (hi : i < df.rows.length) (c : PyStr) :
    dfCell (pipelineRun b df tagCol dv) i c =
      if c ∈ (pipelineRun b df tagCol dv).cols
      then rowVal df tagCol dv (df.rows.get ⟨i, hi⟩) c
      else none := by
  have hr : df.rows.get? i = some (df.rows.get ⟨i, hi⟩) := List.get?_eq_get hi
  simp only [dfCell]
  rw [pipelineRun_rows b df tagCol dv Hrect, List.get?_map, hr, Option.map_some',
    Option.getD_some]
  by_cases hc : c ∈ (pipelineRun b df tagCol dv).cols
  · rw [get?_map_idx hc, if_pos hc]
    rfl
  · rw [get?_of_idx_ge hc _ (by simp), if_neg hc]
    rfl

/-- C3: the chunked pipeline's final output — the union schema as a set
and every record's content — does not depend on the batch size.  The
hypotheses pin down the domain on which the embedding is a faithful
model of the pandas pipeline: unique original columns, a present tag
column distinct from the `Date` constant, rectangular input rows, and no
row whose parsed tags re-produce the tag column's own name. -/
theorem batch_boundary_invariance (df : DataFrame) (tagCol : PyStr) (dv : Cell)
    (hnd : df.cols.Nodup) (htag : tagCol ∈ df.cols) (htd : tagCol ≠ DATE_COL)
    (Hrect : ∀ r ∈ df.rows, r.length = df.cols.length)
    (Htk : ∀ r ∈ df.rows, tagCol ∉ dictKeys (parse_tags (tagCell df tagCol r)))
    (b1 b2 : Nat) (hb1 : 0 < b1) (hb2 : 0 < b2) :
    (∀ c, c ∈ (pipelineRun b1 df tagCol dv).cols ↔
      c ∈ (pipelineRun b2 df tagCol dv).cols) ∧
    (pipelineRun b1 df tagCol dv).rows.length =
      (pipelineRun b2 df tagCol dv).rows.length ∧
    (∀ i c, dfCell (pipelineRun b1 df tagCol dv) i c =
      dfCell (pipelineRun b2 df tagCol dv) i c) := by
  have hlen : ∀ b : Nat, (pipelineRun b df tagCol dv).rows.length = df.rows.length := by
    intro b
    rw [pipelineRun_rows b df tagCol dv Hrect, List.length_map]
  by_cases hne : df.rows = []
  · have hrun : ∀ b : Nat, pipelineRun b df tagCol dv = concatRows [] := by
      intro b
      unfold pipelineRun
      rw [hne]
      have hnil : chunkList b ([] : List (List Cell)) = [] := by simp [chunkList]
      rw [hnil]
      rfl
    refine ⟨?_, ?_, ?_⟩
    · intro c
      rw [hrun b1, hrun b2]
    · rw [hrun b1, hrun b2]
    · intro i c
      rw [hrun b1, hrun b2]
  · have hiff : ∀ c, c ∈ (pipelineRun b1 df tagCol dv).cols ↔
        c ∈ (pipelineRun b2 df tagCol dv).cols := by
      intro c
      rw [pipelineRun_cols_mem b1 df tagCol dv hne c,
        pipelineRun_cols_mem b2 df tagCol dv hne c]
    refine ⟨hiff, by rw [hlen b1, hlen b2], ?_⟩
    intro i c
    by_cases hi : i < df.rows.length
    · rw [pipelineRun_cell b1 df tagCol dv Hrect i hi c,
        pipelineRun_cell b2 df tagCol dv Hrect i hi c]
      by_cases hc : c ∈ (pipelineRun b1 df tagCol dv).cols
      · rw [if_pos hc, if_pos ((hiff c).mp hc)]
      · rw [if_neg hc, if_neg (fun h => hc ((hiff c).mpr h))]
    · have h1 : (pipelineRun b1 df tagCol dv).rows.get? i = none :=
        List.get?_eq_none.mpr (by rw [hlen b1]; omega)
      have h2 : (pipelineRun b2 df tagCol dv).rows.get? i = none :=
        List.get?_eq_none.mpr (by rw [hlen b2]; omega)
      simp only [dfCell]
      rw [h1, h2]
      simp [List.get?_eq_none]

/-- Witness for C3 at a concrete single-row frame and batch sizes 1, 2. -/
theorem batch_boundary_invariance_witness :
    (dfCell (pipelineRun 1 sampleDF TAG_COLUMN none) 0 (st "Environment") =
      dfCell (pipelineRun 2 sampleDF TAG_COLUMN none) 0 (st "Environment")) ∧
    ((st "Owner") ∈ (pipelineRun 1 sampleDF TAG_COLUMN none).cols ↔
      (st "Owner") ∈ (pipelineRun 2 sampleDF TAG_COLUMN none).cols) :=
  ⟨(batch_boundary_invariance sampleDF TAG_COLUMN none (by decide) (by decide)
      (by decide) (by decide) (by decide) 1 2 (by decide) (by decide)).2.2 0 _,
   (batch_boundary_invariance sampleDF TAG_COLUMN none (by decide) (by decide)
      (by decide) (by decide) (by decide) 1 2 (by decide) (by decide)).1 _⟩

/-- C4 (amended): after a full chunked run over a non-empty dataset,
the output is rectangular — the columns are duplicate-free, every record
has exactly one cell per column, the column set is the union of the
original columns, the constant `Date` column, and every canonical field
observed in any record — and a record lacking one of those fields
carries an explicit null there. -/
theorem schema_rectangular (df : DataFrame) (tagCol : PyStr) (dv : Cell)
    (hnd : df.cols.Nodup) (htag : tagCol ∈ df.cols) (htd : tagCol ≠ DATE_COL)
    (Hrect : ∀ r ∈ df.rows, r.length = df.cols.length)
    (Htk : ∀ r ∈ df.rows, tagCol ∉ dictKeys (parse_tags (tagCell df tagCol r)))
    (b : Nat) (hb : 0 < b) (hne : df.rows ≠ []) :
    (pipelineRun b df tagCol dv).cols.Nodup ∧
    (pipelineRun b df tagCol dv).rows.length = df.rows.length ∧
    (∀ row ∈ (pipelineRun b df tagCol dv).rows,
      row.length = (pipelineRun b df tagCol dv).cols.length) ∧
    (∀ c, c ∈ (pipelineRun b df tagCol dv).cols ↔
      (c ∈ df.cols ∨ c = DATE_COL ∨
        ∃ r ∈ df.rows, c ∈ dictKeys (parse_tags (tagCell df tagCol r)))) ∧
    (∀ i (hi : i < df.rows.length) (c : PyStr), c ∉ df.cols → c ≠ DATE_COL →
      c ∉ dictKeys (parse_tags (tagCell df tagCol (df.rows.get ⟨i, hi⟩))) →
      dfCell (pipelineRun b df tagCol dv) i c = none) := by
  refine ⟨nodup_concatCols _, ?_, ?_, pipelineRun_cols_mem b df tagCol dv hne, ?_⟩
  · rw [pipelineRun_rows b df tagCol dv Hrect, List.length_map]
  · intro row hrow
    rw [pipelineRun_rows b df tagCol dv Hrect] at hrow
    obtain ⟨r, _, rfl⟩ := List.mem_map.mp hrow
    rw [List.length_map]
  · intro i hi c hc hcd hkeys
    rw [pipelineRun_cell b df tagCol dv Hrect i hi c]
    by_cases hmem : c ∈ (pipelineRun b df tagCol dv).cols
    · rw [if_pos hmem, rowVal, if_neg hc, parsedVal, if_neg hcd, dictGet_eq_none hkeys]
      rfl
    · rw [if_neg hmem]

/-- C4 (counterexample to the claim as stated): the final schema always
contains the constant `Date` column, which is neither an original column
nor a canonical field observed in any record of the run — so the output
field-name set is strictly larger than the union the claim describes. -/
theorem schema_has_unobserved_date :
    DATE_COL ∈ (pipelineRun 1 tinyDF TAG_COLUMN none).cols ∧
    DATE_COL ∉ tinyDF.cols ∧
    dictKeys (parse_tags (tagCell tinyDF TAG_COLUMN
      (tinyDF.rows.get ⟨0, by decide⟩))) = [st "Owner"] ∧
    DATE_COL ≠ st "Owner" := by
  refine ⟨?_, by decide, by decide, by decide⟩
  exact (pipelineRun_cols_mem 1 tinyDF TAG_COLUMN none (by decide) DATE_COL).mpr
    (Or.inr (Or.inl rfl))

/-- Witness for C4's amended claim at a concrete frame and batch size 2. -/
theorem schema_rectangular_witness :
    (pipelineRun 2 sampleDF TAG_COLUMN none).cols.Nodup ∧
    dfCell (pipelineRun 2 sampleDF TAG_COLUMN none) 0 (st "Usage") = none :=
  ⟨(schema_rectangular sampleDF TAG_COLUMN none (by decide) (by decide) (by decide)
      (by decide) (by decide) 2 (by decide) (by decide)).1,
   (schema_rectangular sampleDF TAG_COLUMN none (by decide) (by decide) (by decide)
      (by decide) (by decide) 2 (by decide) (by decide)).2.2.2.2
      0 (by decide) _ (by decide) (by decide) (by decide)⟩

/-- Witness for C8: a frame without the tag column errors; on a frame
with it, a non-colliding parsed field flows through unchanged. -/
theorem missing_tag_column_aborts_witness :
    (∃ e, process_dataframe noTagDF TAG_COLUMN none = .error e) ∧
    dfCell (process_core sampleDF TAG_COLUMN none) 0 (st "Environment") =
      (dictGet (parse_tags (tagCell sampleDF TAG_COLUMN
        (sampleDF.rows.get ⟨0, by decide⟩))) (st "Environment")).join :=
  ⟨(missing_tag_column_aborts.1 noTagDF TAG_COLUMN none).mpr (by decide),
   (missing_tag_column_aborts.2 sampleDF TAG_COLUMN none (by decide)
     (by decide)).2 0 (by decide) _ (by decide) (by decide)⟩
